import Mathlib

/-!
Verification of the seq-actors persistence core against its specification.

This file gives a shallow embedding of the Rust sources:

* `src/serialize.rs` — the `TypedValue`/`MapKey` data model, the bincode
  codec (`to_bytes`/`from_bytes`), `to_map_key`, and Rust's derived
  `PartialEq` (`rustEq`, in which `f64` NaN compares unequal to itself);
* `src/journal.rs` — length-prefixed event records, `append`,
  `read_events`, `read_events_after`, `save_snapshot`, `load_snapshot`,
  `exists`, over an explicit per-actor file-system model;
* `src/runtime.rs` — the actor registry and the runtime persistence and
  recovery operations (`recover_state`, `persist_event`, `save_snapshot`).

Machine integers are modelled as `Nat`/`Int` with explicit range
conditions (`wf…` predicates); `f64` values are modelled by their 64-bit
pattern, which is exactly what bincode stores.  Bytes are `Nat`s and
files are `List Nat`.  The bincode 1.x legacy configuration used by
`bincode::serialize`/`deserialize` is fixed-width little-endian integers,
`u32` enum tags, and `u64` length prefixes, which is what the codec below
implements.
-/

/-! ## Little-endian fixed-width integer codec (bincode legacy config) -/

/-- Four little-endian bytes of `n`, i.e. `u32::to_le_bytes` after the
`as u32` truncation (only the low 32 bits of `n` are used). -/
def encU32 (n : Nat) : List Nat :=
  [n % 256, n / 256 % 256, n / 65536 % 256, n / 16777216 % 256]

/-- Read a `u32` (4 little-endian bytes) from the front of a byte stream,
`u32::from_le_bytes`.  `none` when fewer than 4 bytes remain. -/
def decU32 : List Nat → Option (Nat × List Nat)
  | b0 :: b1 :: b2 :: b3 :: rest =>
    some (b0 + 256 * b1 + 65536 * b2 + 16777216 * b3, rest)
  | _ => none

theorem decU32_enc (n : Nat) (h : n < 2 ^ 32) (r : List Nat) :
    decU32 (encU32 n ++ r) = some (n, r) := by
  simp only [encU32, List.cons_append, List.nil_append, decU32]
  exact congrArg (fun m => some (m, r)) (by omega)

theorem encU32_length (n : Nat) : (encU32 n).length = 4 := rfl

/-- Eight little-endian bytes of `n` (`u64` serialization). -/
def encU64 (n : Nat) : List Nat :=
  [n % 256, n / 2 ^ 8 % 256, n / 2 ^ 16 % 256, n / 2 ^ 24 % 256,
   n / 2 ^ 32 % 256, n / 2 ^ 40 % 256, n / 2 ^ 48 % 256, n / 2 ^ 56 % 256]

/-- Read a `u64` (8 little-endian bytes) from the front of a byte stream. -/
def decU64 : List Nat → Option (Nat × List Nat)
  | b0 :: b1 :: b2 :: b3 :: b4 :: b5 :: b6 :: b7 :: rest =>
    some (b0 + 2 ^ 8 * b1 + 2 ^ 16 * b2 + 2 ^ 24 * b3 + 2 ^ 32 * b4 + 2 ^ 40 * b5
      + 2 ^ 48 * b6 + 2 ^ 56 * b7, rest)
  | _ => none

theorem decU64_enc (n : Nat) (h : n < 2 ^ 64) (r : List Nat) :
    decU64 (encU64 n ++ r) = some (n, r) := by
  simp only [encU64, List.cons_append, List.nil_append, decU64]
  exact congrArg (fun m => some (m, r)) (by omega)

theorem encU64_length (n : Nat) : (encU64 n).length = 8 := rfl

/-- An `i64` is serialized as its two's-complement bit pattern, little
endian. -/
def encI64 (i : Int) : List Nat := encU64 (i % 2 ^ 64).toNat

/-- Read an `i64`: the `u64` bit pattern reinterpreted as two's
complement. -/
def decI64 (bs : List Nat) : Option (Int × List Nat) :=
  (decU64 bs).map
    (fun p => (if p.1 < 2 ^ 63 then (p.1 : Int) else (p.1 : Int) - 2 ^ 64, p.2))

theorem decI64_enc (i : Int) (h1 : -(2 ^ 63) ≤ i) (h2 : i < 2 ^ 63) (r : List Nat) :
    decI64 (encI64 i ++ r) = some (i, r) := by
  have hlt : (i % 2 ^ 64).toNat < 2 ^ 64 := by omega
  rw [encI64, decI64, decU64_enc _ hlt]
  simp only [Option.map_some']
  have hval : (if (i % 2 ^ 64).toNat < 2 ^ 63
      then (((i % 2 ^ 64).toNat : Nat) : Int)
      else (((i % 2 ^ 64).toNat : Nat) : Int) - 2 ^ 64) = i := by
    split <;> omega
  rw [hval]

theorem encI64_length (i : Int) : (encI64 i).length = 8 := rfl

/-! ## UTF-8 (Rust `String` content as stored by bincode) -/

/-- Standard UTF-8 encoding of one Unicode scalar value. -/
def utf8Ch (c : Nat) : List Nat :=
  if c < 0x80 then [c]
  else if c < 0x800 then [0xC0 + c / 64, 0x80 + c % 64]
  else if c < 0x10000 then [0xE0 + c / 4096, 0x80 + c / 64 % 64, 0x80 + c % 64]
  else [0xF0 + c / 262144, 0x80 + c / 4096 % 64, 0x80 + c / 64 % 64, 0x80 + c % 64]

/-- The UTF-8 bytes of a character sequence: what Rust stores for the
content of a `String`. -/
def strBytes : List Char → List Nat
  | [] => []
  | c :: tl => utf8Ch c.toNat ++ strBytes tl

/-- Is `b` a UTF-8 continuation byte (`0b10xxxxxx`)? -/
def contByte (b : Nat) : Bool := decide (0x80 ≤ b ∧ b < 0xC0)

mutual

/-- Validating UTF-8 decoder over a whole byte list, as performed by
`String::from_utf8` when bincode deserializes a `String`: rejects bare or
missing continuation bytes, overlong forms, surrogates and scalar values
above `0x10FFFF`.  The helpers `utf8Dec2`/`utf8Dec3`/`utf8Dec4` handle a
lead byte announcing a 2-, 3- or 4-byte sequence. -/
def utf8DecChars : List Nat → Option (List Char)
  | [] => some []
  | b0 :: bs =>
    if b0 < 0x80 then
      (utf8DecChars bs).map (fun tl => Char.ofNat b0 :: tl)
    else if b0 < 0xE0 then utf8Dec2 b0 bs
    else if b0 < 0xF0 then utf8Dec3 b0 bs
    else utf8Dec4 b0 bs

def utf8Dec2 (b0 : Nat) : List Nat → Option (List Char)
  | b1 :: bs1 =>
    if 0xC0 ≤ b0 ∧ contByte b1 = true then
      if 0x80 ≤ (b0 - 0xC0) * 64 + (b1 - 0x80) then
        (utf8DecChars bs1).map
          (fun tl => Char.ofNat ((b0 - 0xC0) * 64 + (b1 - 0x80)) :: tl)
      else none
    else none
  | [] => none

def utf8Dec3 (b0 : Nat) : List Nat → Option (List Char)
  | b1 :: b2 :: bs2 =>
    if contByte b1 = true ∧ contByte b2 = true then
      if 0x800 ≤ (b0 - 0xE0) * 4096 + (b1 - 0x80) * 64 + (b2 - 0x80) ∧
          ¬(0xD800 ≤ (b0 - 0xE0) * 4096 + (b1 - 0x80) * 64 + (b2 - 0x80) ∧
            (b0 - 0xE0) * 4096 + (b1 - 0x80) * 64 + (b2 - 0x80) < 0xE000) then
        (utf8DecChars bs2).map
          (fun tl => Char.ofNat ((b0 - 0xE0) * 4096 + (b1 - 0x80) * 64 + (b2 - 0x80)) :: tl)
      else none
    else none
  | _ => none

def utf8Dec4 (b0 : Nat) : List Nat → Option (List Char)
  | b1 :: b2 :: b3 :: bs3 =>
    if b0 < 0xF8 ∧ contByte b1 = true ∧ contByte b2 = true ∧ contByte b3 = true then
      if 0x10000 ≤ (b0 - 0xF0) * 262144 + (b1 - 0x80) * 4096 + (b2 - 0x80) * 64 + (b3 - 0x80) ∧
          (b0 - 0xF0) * 262144 + (b1 - 0x80) * 4096 + (b2 - 0x80) * 64 + (b3 - 0x80) < 0x110000 then
        (utf8DecChars bs3).map
          (fun tl =>
            Char.ofNat ((b0 - 0xF0) * 262144 + (b1 - 0x80) * 4096 + (b2 - 0x80) * 64 + (b3 - 0x80)) :: tl)
      else none
    else none
  | _ => none

end

theorem utf8DecChars_ascii (b : Nat) (h : b < 0x80) (bs : List Nat) :
    utf8DecChars (b :: bs) = (utf8DecChars bs).map (fun tl => Char.ofNat b :: tl) := by
  rw [utf8DecChars]
  rw [if_pos h]

theorem utf8DecChars_two (b0 b1 : Nat) (h0 : 0xC2 ≤ b0) (h0' : b0 < 0xE0)
    (h1 : 0x80 ≤ b1) (h1' : b1 < 0xC0) (bs : List Nat) :
    utf8DecChars (b0 :: b1 :: bs) =
      (utf8DecChars bs).map (fun tl => Char.ofNat ((b0 - 0xC0) * 64 + (b1 - 0x80)) :: tl) := by
  have hA : ¬ (b0 < 0x80) := by omega
  have hC : 0xC0 ≤ b0 ∧ contByte b1 = true := by
    refine ⟨by omega, ?_⟩
    simp only [contByte, decide_eq_true_eq]
    omega
  have hD : 0x80 ≤ (b0 - 0xC0) * 64 + (b1 - 0x80) := by omega
  rw [utf8DecChars, if_neg hA, if_pos h0', utf8Dec2, if_pos hC, if_pos hD]

theorem utf8DecChars_three (b0 b1 b2 : Nat) (h0 : 0xE0 ≤ b0) (h0' : b0 < 0xF0)
    (h1 : 0x80 ≤ b1) (h1' : b1 < 0xC0) (h2 : 0x80 ≤ b2) (h2' : b2 < 0xC0)
    (hval : 0x800 ≤ (b0 - 0xE0) * 4096 + (b1 - 0x80) * 64 + (b2 - 0x80))
    (hsur : ¬(0xD800 ≤ (b0 - 0xE0) * 4096 + (b1 - 0x80) * 64 + (b2 - 0x80) ∧
      (b0 - 0xE0) * 4096 + (b1 - 0x80) * 64 + (b2 - 0x80) < 0xE000))
    (bs : List Nat) :
    utf8DecChars (b0 :: b1 :: b2 :: bs) =
      (utf8DecChars bs).map
        (fun tl => Char.ofNat ((b0 - 0xE0) * 4096 + (b1 - 0x80) * 64 + (b2 - 0x80)) :: tl) := by
  have hA : ¬ (b0 < 0x80) := by omega
  have hB : ¬ (b0 < 0xE0) := by omega
  have hC : contByte b1 = true ∧ contByte b2 = true := by
    constructor <;> (simp only [contByte, decide_eq_true_eq]; omega)
  rw [utf8DecChars, if_neg hA, if_neg hB, if_pos h0', utf8Dec3, if_pos hC, if_pos ⟨hval, hsur⟩]

theorem utf8DecChars_four (b0 b1 b2 b3 : Nat) (h0 : 0xF0 ≤ b0) (h0' : b0 < 0xF8)
    (h1 : 0x80 ≤ b1) (h1' : b1 < 0xC0) (h2 : 0x80 ≤ b2) (h2' : b2 < 0xC0)
    (h3 : 0x80 ≤ b3) (h3' : b3 < 0xC0)
    (hval : 0x10000 ≤ (b0 - 0xF0) * 262144 + (b1 - 0x80) * 4096 + (b2 - 0x80) * 64 + (b3 - 0x80))
    (hval' : (b0 - 0xF0) * 262144 + (b1 - 0x80) * 4096 + (b2 - 0x80) * 64 + (b3 - 0x80) < 0x110000)
    (bs : List Nat) :
    utf8DecChars (b0 :: b1 :: b2 :: b3 :: bs) =
      (utf8DecChars bs).map
        (fun tl =>
          Char.ofNat ((b0 - 0xF0) * 262144 + (b1 - 0x80) * 4096 + (b2 - 0x80) * 64 + (b3 - 0x80)) :: tl) := by
  have hA : ¬ (b0 < 0x80) := by omega
  have hB : ¬ (b0 < 0xE0) := by omega
  have hB' : ¬ (b0 < 0xF0) := by omega
  have hC : b0 < 0xF8 ∧ contByte b1 = true ∧ contByte b2 = true ∧ contByte b3 = true := by
    refine ⟨h0', ?_, ?_, ?_⟩ <;> (simp only [contByte, decide_eq_true_eq]; omega)
  rw [utf8DecChars, if_neg hA, if_neg hB, if_neg hB', utf8Dec4, if_pos hC, if_pos ⟨hval, hval'⟩]

theorem utf8DecChars_strBytes : ∀ l : List Char, utf8DecChars (strBytes l) = some l := by
  intro l
  induction l with
  | nil => rfl
  | cons c tl ih =>
    have hv : c.toNat < 0xD800 ∨ (0xDFFF < c.toNat ∧ c.toNat < 0x110000) := c.valid
    rw [strBytes]
    by_cases h1 : c.toNat < 0x80
    · rw [utf8Ch, if_pos h1, List.cons_append, List.nil_append, utf8DecChars_ascii _ h1, ih]
      simp [Char.ofNat_toNat]
    · by_cases h2 : c.toNat < 0x800
      · rw [utf8Ch, if_neg h1, if_pos h2, List.cons_append, List.cons_append, List.nil_append]
        rw [utf8DecChars_two _ _ (by omega) (by omega) (by omega) (by omega)]
        have hc : (0xC0 + c.toNat / 64 - 0xC0) * 64 + (0x80 + c.toNat % 64 - 0x80) = c.toNat := by
          omega
        rw [hc, ih]
        simp [Char.ofNat_toNat]
      · by_cases h3 : c.toNat < 0x10000
        · rw [utf8Ch, if_neg h1, if_neg h2, if_pos h3, List.cons_append, List.cons_append,
            List.cons_append, List.nil_append]
          have hc : (0xE0 + c.toNat / 4096 - 0xE0) * 4096 + (0x80 + c.toNat / 64 % 64 - 0x80) * 64 +
              (0x80 + c.toNat % 64 - 0x80) = c.toNat := by
            omega
          rw [utf8DecChars_three _ _ _ (by omega) (by omega) (by omega) (by omega) (by omega)
            (by omega) (by rw [hc]; omega) (by rw [hc]; omega)]
          rw [hc, ih]
          simp [Char.ofNat_toNat]
        · rw [utf8Ch, if_neg h1, if_neg h2, if_neg h3, List.cons_append, List.cons_append,
            List.cons_append, List.cons_append, List.nil_append]
          have hc : (0xF0 + c.toNat / 262144 - 0xF0) * 262144 +
              (0x80 + c.toNat / 4096 % 64 - 0x80) * 4096 +
              (0x80 + c.toNat / 64 % 64 - 0x80) * 64 + (0x80 + c.toNat % 64 - 0x80) = c.toNat := by
            omega
          rw [utf8DecChars_four _ _ _ _ (by omega) (by omega) (by omega) (by omega) (by omega)
            (by omega) (by omega) (by omega) (by rw [hc]; omega) (by rw [hc]; omega)]
          rw [hc, ih]
          simp [Char.ofNat_toNat]

/-! ## Strings: `u64` byte-length prefix plus UTF-8 content -/

/-- bincode serialization of a Rust `String`: byte length as `u64`, then
the UTF-8 bytes. -/
def encString (s : String) : List Nat :=
  encU64 (strBytes s.data).length ++ strBytes s.data

/-- bincode deserialization of a `String`: read the byte length, take that
many bytes, validate them as UTF-8. -/
def decString (bs : List Nat) : Option (String × List Nat) :=
  match decU64 bs with
  | some (n, r) =>
    if n ≤ r.length then
      match utf8DecChars (r.take n) with
      | some cs => some (String.mk cs, r.drop n)
      | none => none
    else none
  | none => none

theorem decString_enc (s : String) (h : (strBytes s.data).length < 2 ^ 64) (r : List Nat) :
    decString (encString s ++ r) = some (s, r) := by
  rw [encString, List.append_assoc, decString.eq_def, decU64_enc _ h]
  dsimp only
  rw [if_pos (by simp)]
  rw [show (strBytes s.data ++ r).take (strBytes s.data).length = strBytes s.data from
    List.take_left _ _]
  rw [utf8DecChars_strBytes]
  rw [show (strBytes s.data ++ r).drop (strBytes s.data).length = r from List.drop_left _ _]

theorem encString_length (s : String) :
    (encString s).length = 8 + (strBytes s.data).length := by
  simp [encString, encU64]
  omega

/-! ## MapKey (`src/serialize.rs`) -/

/-- `MapKey`: the subset of `TypedValue` usable as a map key. -/
inductive MapKey where
  | int (i : Int)
  | bool (b : Bool)
  | str (s : String)
deriving DecidableEq

/-- Rust `Ord` on `bool`: `false < true`. -/
def boolCmp : Bool → Bool → Ordering
  | false, false => .eq
  | false, true => .lt
  | true, false => .gt
  | true, true => .eq

/-- Rust's derived `Ord` on `MapKey`: variant order `Int < Bool < String`,
then the inner value.  `Int` uses `i64` order; `String` uses byte-wise
lexicographic order on UTF-8, which coincides with Lean's code-point
lexicographic `String` order. -/
def keyCmp : MapKey → MapKey → Ordering
  | .int a, .int b => compare a b
  | .int _, .bool _ => .lt
  | .int _, .str _ => .lt
  | .bool _, .int _ => .gt
  | .bool a, .bool b => boolCmp a b
  | .bool _, .str _ => .lt
  | .str _, .int _ => .gt
  | .str _, .bool _ => .gt
  | .str a, .str b => compare a b

theorem keyCmp_gt_of_lt (a b : MapKey) (h : keyCmp a b = .lt) : keyCmp b a = .gt := by
  cases a <;> cases b <;> simp only [keyCmp] at h ⊢
  case int.int a b =>
    exact compare_gt_iff_gt.mpr (compare_lt_iff_lt.mp h)
  case bool.bool a b =>
    cases a <;> cases b <;> simp [boolCmp] at h ⊢
  case str.str a b =>
    exact compare_gt_iff_gt.mpr (compare_lt_iff_lt.mp h)
  all_goals first
  | rfl
  | exact absurd h (by simp)

/-- Range and size conditions making a `MapKey` representable in Rust:
`i64` range for integers, `usize` range for string byte lengths. -/
def wfKey : MapKey → Bool
  | .int i => decide (-(2 ^ 63) ≤ i ∧ i < 2 ^ 63)
  | .bool _ => true
  | .str s => decide ((strBytes s.data).length < 2 ^ 64)

/-- bincode serialization of `MapKey`: `u32` variant tag, then the value. -/
def encKey : MapKey → List Nat
  | .int i => encU32 0 ++ encI64 i
  | .bool b => encU32 1 ++ [if b then 1 else 0]
  | .str s => encU32 2 ++ encString s

/-- bincode deserialization of `MapKey`. -/
def decKey (bs : List Nat) : Option (MapKey × List Nat) :=
  match decU32 bs with
  | some (tag, r) =>
    if tag = 0 then (decI64 r).map (fun p => (.int p.1, p.2))
    else if tag = 1 then
      match r with
      | 0 :: r1 => some (.bool false, r1)
      | 1 :: r1 => some (.bool true, r1)
      | _ => none
    else if tag = 2 then (decString r).map (fun p => (.str p.1, p.2))
    else none
  | none => none

theorem decKey_enc (k : MapKey) (h : wfKey k = true) (r : List Nat) :
    decKey (encKey k ++ r) = some (k, r) := by
  cases k with
  | int i =>
    simp only [wfKey, decide_eq_true_eq] at h
    rw [encKey, List.append_assoc, decKey.eq_def, decU32_enc 0 (by norm_num)]
    dsimp only
    rw [if_pos rfl, decI64_enc i h.1 h.2]
    rfl
  | bool b =>
    cases b <;>
      (rw [encKey, List.append_assoc, decKey.eq_def, decU32_enc 1 (by norm_num)]
       dsimp only
       rw [if_neg (by decide), if_pos rfl]
       rfl)
  | str s =>
    simp only [wfKey, decide_eq_true_eq] at h
    rw [encKey, List.append_assoc, decKey.eq_def, decU32_enc 2 (by norm_num)]
    dsimp only
    rw [if_neg (by decide), if_neg (by decide), if_pos rfl, decString_enc s h]
    rfl

theorem encKey_length_ge (k : MapKey) : 5 ≤ (encKey k).length := by
  cases k <;>
    simp only [encKey, List.length_append, encU32_length, encI64_length,
      encString_length, List.length_cons, List.length_nil] <;>
    omega

/-! ## TypedValue (`src/serialize.rs`) -/

/-- `TypedValue`: the closed data model used for actor state and event
payloads.  A `Float` is represented by its 64-bit IEEE-754 pattern (what
bincode stores).  A `Map` (Rust `BTreeMap<MapKey, TypedValue>`) is its
entry list in strictly increasing key order; a `Variant` carries a tag
and an ordered field list (Rust `Vec<TypedValue>`). -/
inductive TypedValue where
  | int (i : Int)
  | float (bits : Nat)
  | bool (b : Bool)
  | str (s : String)
  | map (entries : List (MapKey × TypedValue))
  | variant (tag : String) (fields : List TypedValue)

/-- `BTreeMap::insert` on the sorted entry-list representation: place the
new entry at its ordered position, replacing an entry with an equal key. -/
def insEntry (k : MapKey) (v : TypedValue) :
    List (MapKey × TypedValue) → List (MapKey × TypedValue)
  | [] => [(k, v)]
  | (k1, v1) :: tl =>
    match keyCmp k k1 with
    | .lt => (k, v) :: (k1, v1) :: tl
    | .eq => (k, v) :: tl
    | .gt => (k1, v1) :: insEntry k v tl

/-- Keys strictly increasing throughout the entry list: the `BTreeMap`
invariant (each key is `lt` every later key). -/
def sortedKeysB : List (MapKey × TypedValue) → Bool
  | [] => true
  | e :: tl => tl.all (fun e2 => decide (keyCmp e.1 e2.1 = .lt)) && sortedKeysB tl

mutual

/-- bincode serialization of `TypedValue` (`to_bytes`): `u32` variant tag,
then the payload; maps and variant field lists are a `u64` count followed
by the elements, maps in key order. -/
def encTV : TypedValue → List Nat
  | .int i => encU32 0 ++ encI64 i
  | .float b => encU32 1 ++ encU64 b
  | .bool b => encU32 2 ++ [if b then 1 else 0]
  | .str s => encU32 3 ++ encString s
  | .map l => encU32 4 ++ encU64 l.length ++ encEntries l
  | .variant t fs => encU32 5 ++ encString t ++ encU64 fs.length ++ encFields fs

def encEntries : List (MapKey × TypedValue) → List Nat
  | [] => []
  | (k, v) :: tl => encKey k ++ encTV v ++ encEntries tl

def encFields : List TypedValue → List Nat
  | [] => []
  | v :: tl => encTV v ++ encFields tl

end

mutual

/-- Representability of a `TypedValue` in Rust: `i64` range for integers,
64-bit patterns for floats, `usize`-range lengths, and the `BTreeMap`
sorted-key invariant for maps. -/
def wfTV : TypedValue → Bool
  | .int i => decide (-(2 ^ 63) ≤ i ∧ i < 2 ^ 63)
  | .float b => decide (b < 2 ^ 64)
  | .bool _ => true
  | .str s => decide ((strBytes s.data).length < 2 ^ 64)
  | .map l => decide (l.length < 2 ^ 64) && sortedKeysB l && wfEntries l
  | .variant t fs =>
    decide ((strBytes t.data).length < 2 ^ 64) && decide (fs.length < 2 ^ 64) && wfFields fs

def wfEntries : List (MapKey × TypedValue) → Bool
  | [] => true
  | (k, v) :: tl => wfKey k && wfTV v && wfEntries tl

def wfFields : List TypedValue → Bool
  | [] => true
  | v :: tl => wfTV v && wfFields tl

end

mutual

/-- bincode deserialization of `TypedValue` (`from_bytes`), with a fuel
argument bounding recursion depth (any fuel larger than the input length
behaves like the Rust deserializer, which is bounded by its input).
Deserializing a map folds `BTreeMap::insert` over the decoded pairs. -/
def decTV : Nat → List Nat → Option (TypedValue × List Nat)
  | 0, _ => none
  | f + 1, bs =>
    match decU32 bs with
    | some (tag, r) =>
      if tag = 0 then (decI64 r).map (fun p => (.int p.1, p.2))
      else if tag = 1 then (decU64 r).map (fun p => (.float p.1, p.2))
      else if tag = 2 then
        match r with
        | 0 :: r1 => some (.bool false, r1)
        | 1 :: r1 => some (.bool true, r1)
        | _ => none
      else if tag = 3 then (decString r).map (fun p => (.str p.1, p.2))
      else if tag = 4 then
        match decU64 r with
        | some (n, r1) =>
          match decEntries f n r1 with
          | some (es, r2) =>
            some (.map (es.foldl (fun m e => insEntry e.1 e.2 m) []), r2)
          | none => none
        | none => none
      else if tag = 5 then
        match decString r with
        | some (t, r1) =>
          match decU64 r1 with
          | some (n, r2) =>
            match decFields f n r2 with
            | some (fs, r3) => some (.variant t fs, r3)
            | none => none
          | none => none
        | none => none
      else none
    | none => none

def decEntries : Nat → Nat → List Nat → Option (List (MapKey × TypedValue) × List Nat)
  | _, 0, bs => some ([], bs)
  | 0, _ + 1, _ => none
  | f + 1, n + 1, bs =>
    match decKey bs with
    | some (k, r) =>
      match decTV f r with
      | some (v, r1) =>
        match decEntries f n r1 with
        | some (tl, r2) => some ((k, v) :: tl, r2)
        | none => none
      | none => none
    | none => none

def decFields : Nat → Nat → List Nat → Option (List TypedValue × List Nat)
  | _, 0, bs => some ([], bs)
  | 0, _ + 1, _ => none
  | f + 1, n + 1, bs =>
    match decTV f bs with
    | some (v, r) =>
      match decFields f n r with
      | some (tl, r1) => some (v :: tl, r1)
      | none => none
    | none => none

end

theorem encTV_length_ge (v : TypedValue) : 5 ≤ (encTV v).length := by
  cases v <;>
    simp only [encTV, List.length_append, encU32_length, encU64_length, encI64_length,
      encString_length, List.length_cons, List.length_nil] <;>
    omega

theorem insEntry_allLt (k : MapKey) (v : TypedValue) :
    ∀ acc : List (MapKey × TypedValue),
      acc.all (fun e => decide (keyCmp e.1 k = .lt)) = true →
      insEntry k v acc = acc ++ [(k, v)] := by
  intro acc
  induction acc with
  | nil => intro _; rfl
  | cons e tl ih =>
    intro h
    obtain ⟨k1, v1⟩ := e
    simp only [List.all_cons, Bool.and_eq_true, decide_eq_true_eq] at h
    have hgt : keyCmp k k1 = .gt := keyCmp_gt_of_lt _ _ h.1
    rw [insEntry, hgt]
    rw [ih (by simp only [List.all_eq_true] at h ⊢; exact h.2)]
    rfl

theorem sorted_append_allLt :
    ∀ (acc : List (MapKey × TypedValue)) (e : MapKey × TypedValue) tl,
      sortedKeysB (acc ++ e :: tl) = true →
      acc.all (fun e2 => decide (keyCmp e2.1 e.1 = .lt)) = true := by
  intro acc
  induction acc with
  | nil => intro e tl _; rfl
  | cons a acc' ih =>
    intro e tl h
    rw [List.cons_append, sortedKeysB] at h
    simp only [Bool.and_eq_true] at h
    have ha : decide (keyCmp a.1 e.1 = .lt) = true := by
      have := h.1
      simp only [List.all_append, List.all_cons, Bool.and_eq_true] at this
      exact this.2.1
    simp only [List.all_cons, Bool.and_eq_true]
    exact ⟨ha, ih e tl h.2⟩

theorem foldl_insEntry_sorted :
    ∀ (es acc : List (MapKey × TypedValue)),
      sortedKeysB (acc ++ es) = true →
      es.foldl (fun m e => insEntry e.1 e.2 m) acc = acc ++ es := by
  intro es
  induction es with
  | nil => intro acc _; simp
  | cons e tl ih =>
    intro acc h
    rw [List.foldl_cons]
    rw [insEntry_allLt e.1 e.2 acc (sorted_append_allLt acc e tl h)]
    have hre : (acc ++ [(e.1, e.2)]) ++ tl = acc ++ e :: tl := by simp
    rw [ih (acc ++ [(e.1, e.2)]) (by rw [hre]; exact h), hre]

theorem encFields_count_le (fs : List TypedValue) : fs.length ≤ (encFields fs).length := by
  induction fs with
  | nil => simp [encFields]
  | cons v tl ih =>
    have := encTV_length_ge v
    rw [encFields]
    simp only [List.length_append, List.length_cons]
    omega

theorem decTV_encTV_all : ∀ f : Nat,
    (∀ v r, wfTV v = true → 2 * (encTV v).length ≤ f → decTV f (encTV v ++ r) = some (v, r))
    ∧ (∀ es r, wfEntries es = true → 2 * (encEntries es).length + 1 ≤ f →
        decEntries f es.length (encEntries es ++ r) = some (es, r))
    ∧ (∀ fs r, wfFields fs = true → 2 * (encFields fs).length + 1 ≤ f →
        decFields f fs.length (encFields fs ++ r) = some (fs, r)) := by
  intro f
  induction f with
  | zero =>
    refine ⟨?_, ?_, ?_⟩ <;> intro x r _ hlen
    · have := encTV_length_ge x
      omega
    · omega
    · omega
  | succ f ih =>
    obtain ⟨ihP, ihQ, ihR⟩ := ih
    have ne10 : ¬((1 : Nat) = 0) := by decide
    have ne20 : ¬((2 : Nat) = 0) := by decide
    have ne21 : ¬((2 : Nat) = 1) := by decide
    have ne30 : ¬((3 : Nat) = 0) := by decide
    have ne31 : ¬((3 : Nat) = 1) := by decide
    have ne32 : ¬((3 : Nat) = 2) := by decide
    have ne40 : ¬((4 : Nat) = 0) := by decide
    have ne41 : ¬((4 : Nat) = 1) := by decide
    have ne42 : ¬((4 : Nat) = 2) := by decide
    have ne43 : ¬((4 : Nat) = 3) := by decide
    have ne50 : ¬((5 : Nat) = 0) := by decide
    have ne51 : ¬((5 : Nat) = 1) := by decide
    have ne52 : ¬((5 : Nat) = 2) := by decide
    have ne53 : ¬((5 : Nat) = 3) := by decide
    have ne54 : ¬((5 : Nat) = 4) := by decide
    refine ⟨?_, ?_, ?_⟩
    · intro v r hwf hlen
      cases v with
      | int i =>
        simp only [wfTV, decide_eq_true_eq] at hwf
        rw [encTV, List.append_assoc, decTV, decU32_enc 0 (by norm_num)]
        dsimp only
        rw [if_pos rfl, decI64_enc i hwf.1 hwf.2]
        rfl
      | float b =>
        simp only [wfTV, decide_eq_true_eq] at hwf
        rw [encTV, List.append_assoc, decTV, decU32_enc 1 (by norm_num)]
        dsimp only
        rw [if_neg ne10, if_pos rfl, decU64_enc b hwf]
        rfl
      | bool b =>
        cases b <;>
          (rw [encTV, List.append_assoc, decTV, decU32_enc 2 (by norm_num)]
           dsimp only
           rw [if_neg ne20, if_neg ne21, if_pos rfl]
           rfl)
      | str s =>
        simp only [wfTV, decide_eq_true_eq] at hwf
        rw [encTV, List.append_assoc, decTV, decU32_enc 3 (by norm_num)]
        dsimp only
        rw [if_neg ne30, if_neg ne31, if_neg ne32, if_pos rfl, decString_enc s hwf]
        rfl
      | map l =>
        simp only [wfTV, Bool.and_eq_true, decide_eq_true_eq] at hwf
        obtain ⟨⟨hl64, hsort⟩, hents⟩ := hwf
        have hlen' : 2 * (encEntries l).length + 1 ≤ f := by
          rw [encTV] at hlen
          simp only [List.length_append, encU32_length, encU64_length] at hlen
          omega
        rw [encTV, List.append_assoc, List.append_assoc, decTV, decU32_enc 4 (by norm_num)]
        dsimp only
        rw [if_neg ne40, if_neg ne41, if_neg ne42, if_neg ne43, if_pos rfl,
          decU64_enc l.length hl64]
        dsimp only
        rw [ihQ l r hents hlen']
        dsimp only
        rw [foldl_insEntry_sorted l [] (by simpa using hsort), List.nil_append]
      | variant t fs =>
        simp only [wfTV, Bool.and_eq_true, decide_eq_true_eq] at hwf
        obtain ⟨⟨ht64, hf64⟩, hfs⟩ := hwf
        have hlenf : 2 * (encFields fs).length + 1 ≤ f := by
          rw [encTV] at hlen
          simp only [List.length_append, encU32_length, encU64_length,
            encString_length] at hlen
          omega
        rw [encTV, List.append_assoc, List.append_assoc, List.append_assoc, decTV,
          decU32_enc 5 (by norm_num)]
        dsimp only
        rw [if_neg ne50, if_neg ne51, if_neg ne52, if_neg ne53, if_neg ne54, if_pos rfl,
          decString_enc t ht64]
        dsimp only
        rw [decU64_enc fs.length hf64]
        dsimp only
        rw [ihR fs r hfs hlenf]
    · intro es r hwf hlen
      cases es with
      | nil => rfl
      | cons e tl =>
        obtain ⟨k, v⟩ := e
        simp only [wfEntries, Bool.and_eq_true] at hwf
        obtain ⟨⟨hk, hv⟩, htl⟩ := hwf
        have h5k := encKey_length_ge k
        have h5v := encTV_length_ge v
        rw [encEntries] at hlen
        simp only [List.length_append] at hlen
        have hv' : 2 * (encTV v).length ≤ f := by omega
        have htl' : 2 * (encEntries tl).length + 1 ≤ f := by omega
        simp only [List.length_cons]
        rw [encEntries, List.append_assoc, List.append_assoc, decEntries,
          decKey_enc k hk]
        dsimp only
        rw [ihP v _ hv hv']
        dsimp only
        rw [ihQ tl r htl htl']
    · intro fs r hwf hlen
      cases fs with
      | nil => rfl
      | cons v tl =>
        simp only [wfFields, Bool.and_eq_true] at hwf
        obtain ⟨hv, htl⟩ := hwf
        have h5v := encTV_length_ge v
        rw [encFields] at hlen
        simp only [List.length_append] at hlen
        have hv' : 2 * (encTV v).length ≤ f := by omega
        have htl' : 2 * (encFields tl).length + 1 ≤ f := by omega
        simp only [List.length_cons]
        rw [encFields, List.append_assoc, decFields]
        rw [ihP v _ hv hv']
        dsimp only
        rw [ihR tl r htl htl']

/-! ## Serialization API (`src/serialize.rs`) -/

/-- `SerializeError` from `src/serialize.rs`. -/
inductive SerializeError where
  | quotationNotSerializable
  | closureNotSerializable
  | bincodeError (msg : String)
  | invalidData (msg : String)
deriving DecidableEq

/-- `TypedValue::to_bytes`: bincode serialization.  For this pure data
model bincode serialization cannot fail, so the Rust `Ok` wrapper is
implicit. -/
def toBytesTV (v : TypedValue) : List Nat := encTV v

/-- `TypedValue::from_bytes`: bincode deserialization; trailing bytes are
permitted (bincode 1.x `deserialize` uses `allow_trailing_bytes`).  The
fuel `2 * length + 2` exceeds what any successful parse can consume, so
it is not a real bound; failure is `none` (Rust: a `BincodeError`). -/
def fromBytesTV (bs : List Nat) : Option TypedValue :=
  (decTV (2 * bs.length + 2) bs).map (fun p => p.1)

theorem fromBytesTV_toBytesTV (v : TypedValue) (h : wfTV v = true) :
    fromBytesTV (toBytesTV v) = some v := by
  have hmain := (decTV_encTV_all (2 * (encTV v).length + 2)).1 v [] h (by omega)
  rw [toBytesTV, fromBytesTV]
  rw [show encTV v ++ ([] : List Nat) = encTV v from by simp] at hmain
  rw [hmain]
  rfl

/-- `TypedValue::to_map_key`: succeeds exactly for `Int`, `Bool`,
`String`; `InvalidData` otherwise. -/
def toMapKey : TypedValue → Except SerializeError MapKey
  | .int v => .ok (.int v)
  | .bool v => .ok (.bool v)
  | .str v => .ok (.str v)
  | .float _ => .error (.invalidData "Float cannot be a map key")
  | .map _ => .error (.invalidData "Map cannot be a map key")
  | .variant _ _ => .error (.invalidData "Variant cannot be a map key")

/-! ## Rust `==` on TypedValue (derived `PartialEq`) -/

/-- Is the 64-bit pattern an IEEE-754 `f64` NaN (exponent all ones,
non-zero mantissa)? -/
def isNaNBits (b : Nat) : Bool := decide (b / 2 ^ 52 % 2 ^ 11 = 0x7FF ∧ b % 2 ^ 52 ≠ 0)

/-- IEEE-754 `f64` equality on bit patterns, Rust `f64 == f64`: false
when either side is NaN, true for identical patterns and for `+0 == -0`
(the only distinct patterns denoting equal values). -/
def floatEqB (a b : Nat) : Bool :=
  if isNaNBits a || isNaNBits b then false
  else if a == b then true
  else decide (a % 2 ^ 63 = 0 ∧ b % 2 ^ 63 = 0)

mutual

/-- Rust's derived `PartialEq` on `TypedValue`: structural equality except
that `Float`s compare by IEEE-754 `f64` equality (so NaN ≠ NaN); maps and
variant field lists compare entrywise in order. -/
def rustEq : TypedValue → TypedValue → Bool
  | .int a, .int b => a == b
  | .float a, .float b => floatEqB a b
  | .bool a, .bool b => a == b
  | .str a, .str b => a == b
  | .map l, .map m => rustEqEntries l m
  | .variant t fs, .variant u gs => t == u && rustEqFields fs gs
  | _, _ => false

def rustEqEntries : List (MapKey × TypedValue) → List (MapKey × TypedValue) → Bool
  | [], [] => true
  | (k, v) :: tl, (k2, v2) :: tl2 => k == k2 && rustEq v v2 && rustEqEntries tl tl2
  | _, _ => false

def rustEqFields : List TypedValue → List TypedValue → Bool
  | [], [] => true
  | v :: tl, v2 :: tl2 => rustEq v v2 && rustEqFields tl tl2
  | _, _ => false

end

mutual

/-- No float anywhere in the value is a NaN pattern. -/
def noNaN : TypedValue → Bool
  | .int _ => true
  | .float b => !isNaNBits b
  | .bool _ => true
  | .str _ => true
  | .map l => noNaNEntries l
  | .variant _ fs => noNaNFields fs

def noNaNEntries : List (MapKey × TypedValue) → Bool
  | [] => true
  | (_, v) :: tl => noNaN v && noNaNEntries tl

def noNaNFields : List TypedValue → Bool
  | [] => true
  | v :: tl => noNaN v && noNaNFields tl

end

mutual

theorem rustEq_refl : ∀ v : TypedValue, noNaN v = true → rustEq v v = true
  | .int i, _ => by simp [rustEq]
  | .float b, h => by
    simp only [noNaN, Bool.not_eq_true'] at h
    simp [rustEq, floatEqB, h]
  | .bool b, _ => by simp [rustEq]
  | .str s, _ => by simp [rustEq]
  | .map l, h => by
    simp only [noNaN] at h
    simpa [rustEq] using rustEqEntries_refl l h
  | .variant t fs, h => by
    simp only [noNaN] at h
    simp [rustEq, rustEqFields_refl fs h]

theorem rustEqEntries_refl :
    ∀ es : List (MapKey × TypedValue), noNaNEntries es = true → rustEqEntries es es = true
  | [], _ => by simp [rustEqEntries]
  | (k, v) :: tl, h => by
    simp only [noNaNEntries, Bool.and_eq_true] at h
    simp [rustEqEntries, rustEq_refl v h.1, rustEqEntries_refl tl h.2]

theorem rustEqFields_refl :
    ∀ fs : List TypedValue, noNaNFields fs = true → rustEqFields fs fs = true
  | [], _ => by simp [rustEqFields]
  | v :: tl, h => by
    simp only [noNaNFields, Bool.and_eq_true] at h
    simp [rustEqFields, rustEq_refl v h.1, rustEqFields_refl tl h.2]

end

/-! ## Events and snapshots (`src/journal.rs`) -/

/-- A persisted `Event`: sequence number, type tag, payload, timestamp.
`seq` and `ts` are `u64` values modelled as `Nat`. -/
structure Event where
  seq : Nat
  eventType : String
  payload : TypedValue
  ts : Nat

/-- A `Snapshot` of actor state at a sequence number. -/
structure Snapshot where
  seq : Nat
  state : TypedValue
  ts : Nat

/-- bincode serialization of `Event` (derived `Serialize`): the four
fields in declaration order, no tags. -/
def encEvent (e : Event) : List Nat :=
  encU64 e.seq ++ encString e.eventType ++ encTV e.payload ++ encU64 e.ts

/-- bincode deserialization of `Event` (fuel threaded to the payload
decoder). -/
def decEvent (f : Nat) (bs : List Nat) : Option (Event × List Nat) :=
  match decU64 bs with
  | some (sq, r1) =>
    match decString r1 with
    | some (et, r2) =>
      match decTV f r2 with
      | some (pv, r3) =>
        match decU64 r3 with
        | some (t, r4) => some (⟨sq, et, pv, t⟩, r4)
        | none => none
      | none => none
    | none => none
  | none => none

/-- Representability of an `Event` in Rust (`u64` ranges, payload
well-formed). -/
def wfEvent (e : Event) : Bool :=
  decide (e.seq < 2 ^ 64) && decide ((strBytes e.eventType.data).length < 2 ^ 64) &&
    wfTV e.payload && decide (e.ts < 2 ^ 64)

/-- `Event::from_bytes`; trailing bytes permitted, errors collapse to
`none` (Rust maps them to an `InvalidData` io error). -/
def fromBytesEvent (bs : List Nat) : Option Event :=
  (decEvent (2 * bs.length + 2) bs).map (fun p => p.1)

theorem decEvent_enc (e : Event) (h : wfEvent e = true) (f : Nat)
    (hf : 2 * (encTV e.payload).length ≤ f) (r : List Nat) :
    decEvent f (encEvent e ++ r) = some (e, r) := by
  obtain ⟨sq, et, pv, t⟩ := e
  simp only [wfEvent, Bool.and_eq_true, decide_eq_true_eq] at h
  obtain ⟨⟨⟨hsq, het⟩, hpv⟩, ht⟩ := h
  rw [encEvent, decEvent.eq_def]
  rw [List.append_assoc, List.append_assoc, List.append_assoc, decU64_enc sq hsq]
  dsimp only
  rw [decString_enc et het]
  dsimp only
  rw [(decTV_encTV_all f).1 pv _ hpv hf]
  dsimp only
  rw [decU64_enc t ht]

theorem encEvent_length (e : Event) :
    (encEvent e).length =
      24 + (strBytes e.eventType.data).length + (encTV e.payload).length := by
  simp only [encEvent, List.length_append, encU64_length, encString_length]
  omega

theorem fromBytesEvent_enc (e : Event) (h : wfEvent e = true) :
    fromBytesEvent (encEvent e) = some e := by
  rw [fromBytesEvent]
  have hf : 2 * (encTV e.payload).length ≤ 2 * (encEvent e).length + 2 := by
    have := encEvent_length e
    omega
  have hd := decEvent_enc e h (2 * (encEvent e).length + 2) hf []
  rw [show encEvent e ++ ([] : List Nat) = encEvent e from by simp] at hd
  rw [hd]
  rfl

/-- bincode serialization of `Snapshot` (derived `Serialize`). -/
def encSnapshot (s : Snapshot) : List Nat :=
  encU64 s.seq ++ encTV s.state ++ encU64 s.ts

/-- bincode deserialization of `Snapshot`. -/
def decSnapshot (f : Nat) (bs : List Nat) : Option (Snapshot × List Nat) :=
  match decU64 bs with
  | some (sq, r1) =>
    match decTV f r1 with
    | some (st, r2) =>
      match decU64 r2 with
      | some (t, r3) => some (⟨sq, st, t⟩, r3)
      | none => none
    | none => none
  | none => none

/-- Representability of a `Snapshot` in Rust. -/
def wfSnapshot (s : Snapshot) : Bool :=
  decide (s.seq < 2 ^ 64) && wfTV s.state && decide (s.ts < 2 ^ 64)

/-- `Snapshot::from_bytes`. -/
def fromBytesSnapshot (bs : List Nat) : Option Snapshot :=
  (decSnapshot (2 * bs.length + 2) bs).map (fun p => p.1)

theorem decSnapshot_enc (s : Snapshot) (h : wfSnapshot s = true) (f : Nat)
    (hf : 2 * (encTV s.state).length ≤ f) (r : List Nat) :
    decSnapshot f (encSnapshot s ++ r) = some (s, r) := by
  obtain ⟨sq, st, t⟩ := s
  simp only [wfSnapshot, Bool.and_eq_true, decide_eq_true_eq] at h
  obtain ⟨⟨hsq, hst⟩, ht⟩ := h
  rw [encSnapshot, decSnapshot.eq_def]
  rw [List.append_assoc, List.append_assoc, decU64_enc sq hsq]
  dsimp only
  rw [(decTV_encTV_all f).1 st _ hst hf]
  dsimp only
  rw [decU64_enc t ht]

theorem fromBytesSnapshot_enc (s : Snapshot) (h : wfSnapshot s = true) :
    fromBytesSnapshot (encSnapshot s) = some s := by
  rw [fromBytesSnapshot]
  have hlen : (encSnapshot s).length = 16 + (encTV s.state).length := by
    simp only [encSnapshot, List.length_append, encU64_length]
    omega
  have hd := decSnapshot_enc s h (2 * (encSnapshot s).length + 2) (by omega) []
  rw [show encSnapshot s ++ ([] : List Nat) = encSnapshot s from by simp] at hd
  rw [hd]
  rfl

/-! ## Journal file model (`src/journal.rs`) -/

/-- The `std::io::ErrorKind` values the journal code distinguishes. -/
inductive IOErrorKind where
  | unexpectedEof
  | invalidData
  | other
deriving DecidableEq

/-- The on-disk files of one actor directory: `journal.bin`,
`snapshot.bin` (absent file = `none`), and whether the directory itself
exists. -/
structure ActorStore where
  journal : Option (List Nat)
  snapshot : Option (List Nat)
  dir : Bool

/-- An actor identifier with no prior journal activity: no directory and
no files. -/
def emptyStore : ActorStore := ⟨none, none, false⟩

/-- The file system under the journal's base path, keyed by the actor
identifier (its canonical textual form names the directory). -/
abbrev JournalFS := String → ActorStore

/-- One length-prefixed record as written by `Journal::append`: the
4-byte little-endian `data.len() as u32` (truncating above `2^32`), then
the encoded event. -/
def record (e : Event) : List Nat := encU32 (encEvent e).length ++ encEvent e

theorem record_length (e : Event) : (record e).length = 4 + (encEvent e).length := by
  simp only [record, List.length_append, encU32_length]

/-- The read loop of `Journal::read_events`.  Reading the 4-byte length
prefix with fewer than 4 bytes remaining is `read_exact` returning
`UnexpectedEof`, which the loop treats as the clean end of the stream.
A payload shorter than its length prefix makes the payload `read_exact`
return `UnexpectedEof`, which the `?` operator propagates as an error;
an undecodable payload is an `InvalidData` error.  The fuel only bounds
iterations and exceeds what any input can use. -/
def readLoop : Nat → List Nat → Except IOErrorKind (List Event)
  | 0, _ => .error .other
  | f + 1, bs =>
    if bs.length < 4 then .ok []
    else
      match decU32 bs with
      | some (len, r) =>
        if r.length < len then .error .unexpectedEof
        else
          match fromBytesEvent (r.take len) with
          | some e =>
            match readLoop f (r.drop len) with
            | .ok tl => .ok (e :: tl)
            | .error er => .error er
          | none => .error .invalidData
      | none => .error .other

/-- `Journal::read_events`: empty result for a missing log file,
otherwise the sequential scan of length-prefixed records. -/
def readEventsStore (st : ActorStore) : Except IOErrorKind (List Event) :=
  match st.journal with
  | none => .ok []
  | some bs => readLoop (bs.length + 1) bs

/-- `Journal::read_events_after`: the full scan filtered to events with
`seq` strictly greater than the threshold. -/
def readEventsAfterStore (st : ActorStore) (afterSeq : Nat) :
    Except IOErrorKind (List Event) :=
  (readEventsStore st).map (fun es => es.filter (fun e => decide (afterSeq < e.seq)))

/-- `Journal::append`: create the directory if needed, append the
length-prefixed record to the log (creating it if absent). -/
def appendStore (st : ActorStore) (e : Event) : ActorStore :=
  { journal := some (st.journal.getD [] ++ record e)
    snapshot := st.snapshot
    dir := true }

/-- `Journal::save_snapshot`: create the directory if needed and
overwrite the snapshot file wholesale. -/
def saveSnapshotStore (st : ActorStore) (sn : Snapshot) : ActorStore :=
  { journal := st.journal
    snapshot := some (encSnapshot sn)
    dir := true }

/-- `Journal::load_snapshot`: `none` when the file is absent, the decoded
snapshot otherwise; a decode failure is an `InvalidData` error. -/
def loadSnapshotStore (st : ActorStore) : Except IOErrorKind (Option Snapshot) :=
  match st.snapshot with
  | none => .ok none
  | some bs =>
    match fromBytesSnapshot bs with
    | some sn => .ok (some sn)
    | none => .error .invalidData

/-- `Journal::exists`: is the actor's directory present? -/
def existsStore (st : ActorStore) : Bool := st.dir

theorem readLoop_flatMap_record :
    ∀ (evts : List Event) (fuel : Nat) (suffix : List Nat),
      (∀ e ∈ evts, wfEvent e = true) →
      (∀ e ∈ evts, (encEvent e).length < 2 ^ 32) →
      (evts.flatMap record).length + suffix.length < fuel →
      readLoop fuel (evts.flatMap record ++ suffix)
        = (readLoop (fuel - evts.length) suffix).map (fun tl => evts ++ tl) := by
  intro evts
  induction evts with
  | nil =>
    intro fuel suffix _ _ _
    simp only [List.flatMap_nil, List.nil_append, List.length_nil, Nat.sub_zero]
    cases readLoop fuel suffix <;> simp [Except.map]
  | cons e tl ih =>
    intro fuel suffix hwf hsz hlen
    have hwfe : wfEvent e = true := hwf e (by simp)
    have hsze : (encEvent e).length < 2 ^ 32 := hsz e (by simp)
    have hbytes : (e :: tl).flatMap record ++ suffix
        = encU32 (encEvent e).length ++ (encEvent e ++ (tl.flatMap record ++ suffix)) := by
      simp [record, List.flatMap_cons, List.append_assoc]
    have hlen' : ((e :: tl).flatMap record).length + suffix.length
        = 4 + (encEvent e).length + ((tl.flatMap record).length + suffix.length) := by
      simp only [List.flatMap_cons, List.length_append, record_length]
      omega
    cases fuel with
    | zero => omega
    | succ g =>
      rw [hbytes, readLoop]
      rw [if_neg (by
        simp only [List.length_append, encU32_length]
        omega)]
      rw [decU32_enc _ hsze]
      dsimp only
      rw [if_neg (by
        simp only [List.length_append]
        omega)]
      rw [List.take_left' rfl, List.drop_left' rfl]
      rw [fromBytesEvent_enc e hwfe]
      dsimp only
      rw [ih g suffix (fun x hx => hwf x (by simp [hx])) (fun x hx => hsz x (by simp [hx]))
        (by omega)]
      have hfg : g + 1 - (e :: tl).length = g - tl.length := by
        simp only [List.length_cons]
        omega
      rw [hfg]
      cases readLoop (g - tl.length) suffix <;> simp [Except.map]

/-! ## Actor registry (`src/runtime.rs`) -/

/-- `Mailbox`: wraps a channel id. -/
structure Mailbox where
  channelId : Int
deriving DecidableEq

/-- `ActorEntry`: registry bookkeeping for one actor. -/
structure ActorEntry where
  mailbox : Mailbox
  behavior : String
  running : Bool

/-- `ActorRegistry`: map from actor id (canonical textual form) to its
entry.  The `RwLock<HashMap<..>>` is modelled as the map contents; each
operation is one lock-protected access. -/
abbrev Registry := String → Option ActorEntry

/-- `ActorRegistry::register`: insert or replace the entry, marked
running. -/
def regRegister (rg : Registry) (id : String) (mb : Mailbox) (behavior : String) :
    Registry :=
  fun x => if x = id then some ⟨mb, behavior, true⟩ else rg x

/-- `ActorRegistry::get_mailbox`. -/
def regGetMailbox (rg : Registry) (id : String) : Option Mailbox :=
  (rg id).map (fun e => e.mailbox)

/-- `ActorRegistry::mark_stopped`: clear the running flag of an existing
entry; no effect when absent. -/
def regMarkStopped (rg : Registry) (id : String) : Registry :=
  fun x => if x = id then (rg x).map (fun e => { e with running := false }) else rg x

/-- `ActorRegistry::unregister`: remove the entry. -/
def regUnregister (rg : Registry) (id : String) : Registry :=
  fun x => if x = id then none else rg x

/-- `ActorRegistry::is_running`: present and running
(`is_some_and(|e| e.running)`). -/
def regIsRunning (rg : Registry) (id : String) : Bool :=
  match rg id with
  | some e => e.running
  | none => false

/-! ## Actor runtime (`src/runtime.rs`) -/

/-- `RuntimeConfig`: journaling flag and advisory snapshot interval (the
base path is the root of the modelled file system). -/
structure RuntimeConfig where
  journalingEnabled : Bool
  snapshotInterval : Nat

/-- `ActorRuntime::persist_event`: append through the journal when
journaling is enabled, otherwise a no-op returning success.  State
passing returns the resulting file system. -/
def persistEvent (cfg : RuntimeConfig) (fs : JournalFS) (id : String) (e : Event) :
    Except IOErrorKind JournalFS :=
  if cfg.journalingEnabled then
    .ok (fun x => if x = id then appendStore (fs x) e else fs x)
  else .ok fs

/-- `ActorRuntime::save_snapshot`: build a snapshot from the given state
and sequence number (`ts` supplied by the system clock, passed here as an
argument) and write it, when journaling is enabled; otherwise a no-op
returning success. -/
def saveSnapshotRT (cfg : RuntimeConfig) (fs : JournalFS) (id : String)
    (state : TypedValue) (sq : Nat) (ts : Nat) : Except IOErrorKind JournalFS :=
  if cfg.journalingEnabled then
    .ok (fun x => if x = id then saveSnapshotStore (fs x) ⟨sq, state, ts⟩ else fs x)
  else .ok fs

/-- `ActorRuntime::recover_state`: load the snapshot; with a snapshot,
fetch events after its `seq` and return the snapshot state paired with
the snapshot `seq` (no trailing events) or with the last trailing
event's `seq` (the `TODO` stub: the snapshot state itself is returned
unmodified and no replay happens).  With no snapshot, read all events
and return `none` when there are none, else an empty map paired with the
last event's `seq` (again without replay). -/
def recoverState (fs : JournalFS) (id : String) :
    Except IOErrorKind (Option (TypedValue × Nat)) :=
  match loadSnapshotStore (fs id) with
  | .error er => .error er
  | .ok (some snap) =>
    match readEventsAfterStore (fs id) snap.seq with
    | .error er => .error er
    | .ok events =>
      if events.isEmpty then .ok (some (snap.state, snap.seq))
      else .ok (some (snap.state, ((events.getLast?).map (fun e => e.seq)).getD snap.seq))
  | .ok none =>
    match readEventsStore (fs id) with
    | .error er => .error er
    | .ok events =>
      if events.isEmpty then .ok none
      else .ok (some (.map [], ((events.getLast?).map (fun e => e.seq)).getD 0))

theorem flatMap_record_length_ge (evts : List Event) :
    4 * evts.length ≤ (evts.flatMap record).length := by
  induction evts with
  | nil => simp
  | cons e tl ih =>
    simp only [List.flatMap_cons, List.length_append, List.length_cons, record_length]
    omega

theorem readLoop_short (f : Nat) (t : List Nat) (hf : 0 < f) (ht : t.length < 4) :
    readLoop f t = .ok [] := by
  cases f with
  | zero => omega
  | succ g =>
    rw [readLoop, if_pos ht]

theorem readLoop_torn_payload (f n : Nat) (d : List Nat) (hf : 0 < f) (hn : n < 2 ^ 32)
    (hd : d.length < n) : readLoop f (encU32 n ++ d) = .error .unexpectedEof := by
  cases f with
  | zero => omega
  | succ g =>
    rw [readLoop]
    rw [if_neg (by
      simp only [List.length_append, encU32_length]
      omega)]
    rw [decU32_enc n hn]
    dsimp only
    rw [if_pos hd]

theorem foldl_appendStore_journal :
    ∀ (evts : List Event) (st : ActorStore), evts ≠ [] →
      evts.foldl appendStore st
        = ⟨some (st.journal.getD [] ++ evts.flatMap record), st.snapshot, true⟩ := by
  intro evts
  induction evts with
  | nil => intro st h; exact absurd rfl h
  | cons e tl ih =>
    intro st _
    rw [List.foldl_cons]
    by_cases htl : tl = []
    · subst htl
      simp [appendStore]
    · rw [ih (appendStore st e) htl]
      simp [appendStore, List.flatMap_cons]

/-! ## Claim theorems -/

/-- C5: for every TypedValue `v`, `to_map_key v` succeeds exactly when
`v` is `Int`, `Bool` or `String`, returning the corresponding `MapKey`,
and returns an `InvalidData` error when `v` is `Float`, `Map` or
`Variant`. -/
theorem to_map_key_classification :
    (∀ i : Int, toMapKey (.int i) = .ok (.int i))
    ∧ (∀ b : Bool, toMapKey (.bool b) = .ok (.bool b))
    ∧ (∀ s : String, toMapKey (.str s) = .ok (.str s))
    ∧ (∀ bits : Nat,
        toMapKey (.float bits) = .error (.invalidData "Float cannot be a map key"))
    ∧ (∀ l : List (MapKey × TypedValue),
        toMapKey (.map l) = .error (.invalidData "Map cannot be a map key"))
    ∧ (∀ (t : String) (fs : List TypedValue),
        toMapKey (.variant t fs) = .error (.invalidData "Variant cannot be a map key")) :=
  ⟨fun _ => rfl, fun _ => rfl, fun _ => rfl, fun _ => rfl, fun _ => rfl, fun _ _ => rfl⟩

/-- C7: for every registry state and actor id, after `register` the actor
is running and its mailbox resolves; after `mark_stopped` it is not
running but the mailbox still resolves; after `unregister` the mailbox no
longer resolves; and `is_running` is false both for the stopped entry and
for an absent one (here: any id just unregistered from any registry). -/
theorem registry_lifecycle (rg : Registry) (id : String) (mb : Mailbox) (bh : String) :
    regIsRunning (regRegister rg id mb bh) id = true
    ∧ regGetMailbox (regRegister rg id mb bh) id = some mb
    ∧ regIsRunning (regMarkStopped (regRegister rg id mb bh) id) id = false
    ∧ regGetMailbox (regMarkStopped (regRegister rg id mb bh) id) id = some mb
    ∧ regGetMailbox (regUnregister (regMarkStopped (regRegister rg id mb bh) id) id) id = none
    ∧ regIsRunning (regUnregister (regMarkStopped (regRegister rg id mb bh) id) id) id = false
    ∧ regIsRunning (regUnregister rg id) id = false := by
  refine ⟨?_, ?_, ?_, ?_, ?_, ?_, ?_⟩ <;>
    simp [regIsRunning, regGetMailbox, regRegister, regMarkStopped, regUnregister]

/-- C8: an actor id with no prior journal activity (no directory, no log
file, no snapshot file): `read_events` returns the empty sequence,
`load_snapshot` returns none, `exists` is false, and none of them is an
error. -/
theorem fresh_actor_reads_empty (fs : JournalFS) (id : String) (h : fs id = emptyStore) :
    readEventsStore (fs id) = .ok []
    ∧ loadSnapshotStore (fs id) = .ok none
    ∧ existsStore (fs id) = false := by
  rw [h]
  exact ⟨rfl, rfl, rfl⟩

/-- Witness for C8 at a concrete empty file system. -/
theorem fresh_actor_reads_empty_witness :
    readEventsStore ((fun _ => emptyStore : JournalFS) "a") = .ok []
    ∧ loadSnapshotStore ((fun _ => emptyStore : JournalFS) "a") = .ok none
    ∧ existsStore ((fun _ => emptyStore : JournalFS) "a") = false :=
  fresh_actor_reads_empty (fun _ => emptyStore) "a" rfl

/-- C9: whenever the journaling-enabled flag is false, `persist_event`
and `save_snapshot` return success and leave the file system (every
actor's journal file, snapshot file and directory) exactly as it was. -/
theorem journaling_disabled_noop (cfg : RuntimeConfig) (fs : JournalFS) (id : String)
    (e : Event) (st : TypedValue) (sq ts : Nat) (h : cfg.journalingEnabled = false) :
    persistEvent cfg fs id e = .ok fs ∧ saveSnapshotRT cfg fs id st sq ts = .ok fs := by
  constructor <;> simp [persistEvent, saveSnapshotRT, h]

/-- Witness for C9 at a concrete disabled configuration. -/
theorem journaling_disabled_noop_witness :
    persistEvent ⟨false, 100⟩ (fun _ => emptyStore) "a" ⟨0, "A", .int 1, 0⟩
        = .ok (fun _ => emptyStore)
    ∧ saveSnapshotRT ⟨false, 100⟩ (fun _ => emptyStore) "a" (.int 7) 3 0
        = .ok (fun _ => emptyStore) :=
  journaling_disabled_noop ⟨false, 100⟩ (fun _ => emptyStore) "a" ⟨0, "A", .int 1, 0⟩
    (.int 7) 3 0 rfl

/-- C6: for every actor with a saved snapshot and no event in the log
with `seq` greater than the snapshot's `seq`, `recover_state` returns
exactly the snapshot's state paired with the snapshot's `seq`. -/
theorem recover_state_snapshot_no_trailing (fs : JournalFS) (id : String) (snap : Snapshot)
    (hs : loadSnapshotStore (fs id) = .ok (some snap))
    (he : readEventsAfterStore (fs id) snap.seq = .ok []) :
    recoverState fs id = .ok (some (snap.state, snap.seq)) := by
  rw [recoverState.eq_def, hs]
  dsimp only
  rw [he]
  rfl

/-- Witness for C6: a concrete store holding only a snapshot at seq 5. -/
theorem recover_state_snapshot_no_trailing_witness :
    recoverState (fun _ => ⟨none, some (encSnapshot ⟨5, .int 7, 0⟩), true⟩) "a"
      = .ok (some (.int 7, 5)) :=
  recover_state_snapshot_no_trailing
    (fun _ => ⟨none, some (encSnapshot ⟨5, .int 7, 0⟩), true⟩) "a" ⟨5, .int 7, 0⟩ rfl rfl

/-- C10: for every actor with no saved snapshot but a non-empty event
log, `recover_state` returns `some` of the empty map paired with the
`seq` of the last event in the log — not the events themselves nor any
replayed state. -/
theorem recover_state_no_snapshot_empty_map (fs : JournalFS) (id : String)
    (es : List Event) (e : Event)
    (hs : loadSnapshotStore (fs id) = .ok none)
    (he : readEventsStore (fs id) = .ok es)
    (hlast : es.getLast? = some e) :
    recoverState fs id = .ok (some (.map [], e.seq)) := by
  have hne : es ≠ [] := by
    intro hnil
    subst hnil
    simp at hlast
  rw [recoverState.eq_def, hs]
  dsimp only
  rw [he]
  dsimp only
  rw [if_neg (by simp [List.isEmpty_iff, hne])]
  rw [hlast]
  rfl

/-- Witness for C10: one event at seq 3, no snapshot. -/
theorem recover_state_no_snapshot_empty_map_witness :
    recoverState (fun _ => ⟨some (record ⟨3, "B", .int 9, 0⟩), none, true⟩) "a"
      = .ok (some (.map [], 3)) :=
  recover_state_no_snapshot_empty_map
    (fun _ => ⟨some (record ⟨3, "B", .int 9, 0⟩), none, true⟩) "a"
    [⟨3, "B", .int 9, 0⟩] ⟨3, "B", .int 9, 0⟩ rfl rfl rfl

/-- C1 (code bug): with a snapshot at seq 0 and a trailing event at
seq 1, `recover_state` neither returns the trailing events to the caller
nor replays them: it returns the snapshot state (the empty map)
unmodified, only bumping the sequence number to the last event's seq —
the `TODO` replay stub in `src/runtime.rs`.  The second conjunct shows a
trailing event (seq 1 > snapshot seq 0) really is present, and the third
shows the snapshot that was loaded. -/
theorem recover_state_trailing_events_stub :
    recoverState
        (fun _ => ⟨some (record ⟨1, "Deposit", .int 5, 0⟩),
          some (encSnapshot ⟨0, .map [], 0⟩), true⟩) "acct"
      = .ok (some (.map [], 1))
    ∧ readEventsAfterStore
        ((fun _ => ⟨some (record ⟨1, "Deposit", .int 5, 0⟩),
          some (encSnapshot ⟨0, .map [], 0⟩), true⟩ : JournalFS) "acct") 0
      = .ok [⟨1, "Deposit", .int 5, 0⟩]
    ∧ loadSnapshotStore
        ((fun _ => ⟨some (record ⟨1, "Deposit", .int 5, 0⟩),
          some (encSnapshot ⟨0, .map [], 0⟩), true⟩ : JournalFS) "acct")
      = .ok (some ⟨0, .map [], 0⟩) :=
  ⟨rfl, rfl, rfl⟩

/-- C3 counterexample: for the NaN float (bit pattern
`0x7FF8000000000000`, Rust's `f64::NAN`), `from_bytes (to_bytes v)`
succeeds and returns the bit-identical value, but under Rust `==`
(derived `PartialEq`, in which NaN ≠ NaN) the result does not equal `v`:
`decode(encode v) == v` is false.  So the round trip does not hold under
Rust equality for every Float value. -/
theorem typed_value_nan_round_trip_not_eq :
    fromBytesTV (toBytesTV (.float 0x7FF8000000000000))
      = some (.float 0x7FF8000000000000)
    ∧ rustEq (.float 0x7FF8000000000000) (.float 0x7FF8000000000000) = false :=
  ⟨rfl, rfl⟩

/-- C3 amended: for every representable TypedValue `v` (including
arbitrarily nested Map/Variant combinations and every Float value),
`from_bytes (to_bytes v)` succeeds and returns exactly `v` (bit-for-bit);
the result moreover equals `v` under Rust `==` whenever no float in `v`
is NaN. -/
theorem typed_value_round_trip_amended (v : TypedValue) (h : wfTV v = true) :
    fromBytesTV (toBytesTV v) = some v ∧ (noNaN v = true → rustEq v v = true) :=
  ⟨fromBytesTV_toBytesTV v h, fun hn => rustEq_refl v hn⟩

/-- Witness for the amended C3 at a nested map/variant value containing a
float. -/
theorem typed_value_round_trip_amended_witness :
    fromBytesTV (toBytesTV (.map [(.int 2, .bool true),
        (.str "a", .variant "Some" [.int 1, .float 3, .str "x"])]))
      = some (.map [(.int 2, .bool true),
        (.str "a", .variant "Some" [.int 1, .float 3, .str "x"])])
    ∧ rustEq (.map [(.int 2, .bool true),
        (.str "a", .variant "Some" [.int 1, .float 3, .str "x"])])
        (.map [(.int 2, .bool true),
          (.str "a", .variant "Some" [.int 1, .float 3, .str "x"])]) = true :=
  ⟨(typed_value_round_trip_amended (.map [(.int 2, .bool true),
      (.str "a", .variant "Some" [.int 1, .float 3, .str "x"])]) rfl).1,
    (typed_value_round_trip_amended (.map [(.int 2, .bool true),
      (.str "a", .variant "Some" [.int 1, .float 3, .str "x"])]) rfl).2 rfl⟩

/-- C4: for every sequence of appended events and every threshold `k`,
`read_events_after` returns exactly the events with `seq` strictly
greater than `k`, in the order of the full `read_events` scan.  The
journal file is the one produced by appending the events in order,
starting from no prior activity. -/
theorem read_events_after_filter (evts : List Event) (k : Nat)
    (hwf : ∀ e ∈ evts, wfEvent e = true)
    (hsz : ∀ e ∈ evts, (encEvent e).length < 2 ^ 32) :
    readEventsAfterStore (evts.foldl appendStore emptyStore) k
      = .ok (evts.filter (fun e => decide (k < e.seq))) := by
  by_cases hne : evts = []
  · subst hne
    rfl
  · rw [foldl_appendStore_journal evts emptyStore hne]
    rw [readEventsAfterStore, readEventsStore]
    dsimp only
    rw [show (emptyStore.journal.getD [] ++ evts.flatMap record) = evts.flatMap record from
      by simp [emptyStore]]
    rw [show evts.flatMap record = evts.flatMap record ++ [] from by simp]
    rw [readLoop_flatMap_record evts _ [] hwf hsz (by simp)]
    have hcount := flatMap_record_length_ge evts
    rw [readLoop_short _ []
      (by simp only [List.length_append, List.length_nil]; omega) (by simp)]
    simp [Except.map]

/-- Witness for C4: two appended events, threshold 0 keeps only seq 1. -/
theorem read_events_after_filter_witness :
    readEventsAfterStore
        ([⟨0, "A", .int 1, 0⟩, ⟨1, "B", .int 2, 0⟩].foldl appendStore emptyStore) 0
      = .ok [⟨1, "B", .int 2, 0⟩] :=
  (read_events_after_filter [⟨0, "A", .int 1, 0⟩, ⟨1, "B", .int 2, 0⟩] 0
    (by decide) (by decide)).trans rfl

/-- C2 counterexample: a journal holding one fully-written record
followed by a torn final append whose payload is cut short (complete
4-byte length prefix, payload one byte shorter than announced).
`read_events` does not treat this tail as a clean end-of-stream returning
the prior record: the payload `read_exact` hits `UnexpectedEof`, which
`?` propagates as a hard error, discarding even the fully-written prior
record. -/
theorem read_events_torn_payload_errors :
    readEventsStore ⟨some (record ⟨0, "A", .int 1, 0⟩
        ++ encU32 (encEvent ⟨1, "B", .int 2, 0⟩).length
        ++ (encEvent ⟨1, "B", .int 2, 0⟩).take ((encEvent ⟨1, "B", .int 2, 0⟩).length - 1)),
        none, true⟩
      = .error .unexpectedEof
    ∧ (Except.error .unexpectedEof : Except IOErrorKind (List Event))
        ≠ .ok [⟨0, "A", .int 1, 0⟩] :=
  ⟨rfl, by simp⟩

/-- C2 amended: only a torn length prefix (fewer than 4 trailing bytes
after the fully-written records, however they read) is treated as a clean
end-of-stream, with all prior fully-written records returned without
error; a torn payload (complete 4-byte length prefix announcing `n`
bytes with fewer than `n` available) is a hard `UnexpectedEof` failure
that discards the whole read. -/
theorem read_events_torn_tail_amended (evts : List Event) (sn : Option (List Nat))
    (dr : Bool) (t : List Nat) (n : Nat) (d : List Nat)
    (hwf : ∀ e ∈ evts, wfEvent e = true)
    (hsz : ∀ e ∈ evts, (encEvent e).length < 2 ^ 32)
    (ht : t.length < 4) (hn : n < 2 ^ 32) (hd : d.length < n) :
    readEventsStore ⟨some (evts.flatMap record ++ t), sn, dr⟩ = .ok evts
    ∧ readEventsStore ⟨some (evts.flatMap record ++ (encU32 n ++ d)), sn, dr⟩
        = .error .unexpectedEof := by
  have hcount := flatMap_record_length_ge evts
  constructor
  · rw [readEventsStore]
    dsimp only
    rw [readLoop_flatMap_record evts _ t hwf hsz (by simp)]
    rw [readLoop_short _ t
      (by simp only [List.length_append]; omega) ht]
    simp [Except.map]
  · rw [readEventsStore]
    dsimp only
    rw [readLoop_flatMap_record evts _ (encU32 n ++ d) hwf hsz (by simp)]
    rw [readLoop_torn_payload _ n d
      (by simp only [List.length_append, encU32_length]; omega) hn hd]
    rfl

/-- Witness for the amended C2: one complete record, then either a 1-byte
torn prefix (clean end) or a torn payload (hard error). -/
theorem read_events_torn_tail_amended_witness :
    readEventsStore ⟨some ([⟨0, "A", .int 1, 0⟩].flatMap record ++ [7]), none, true⟩
      = .ok [⟨0, "A", .int 1, 0⟩]
    ∧ readEventsStore
        ⟨some ([⟨0, "A", .int 1, 0⟩].flatMap record ++ (encU32 5 ++ [1, 2])), none, true⟩
      = .error .unexpectedEof :=
  read_events_torn_tail_amended [⟨0, "A", .int 1, 0⟩] none true [7] 5 [1, 2]
    (by decide) (by decide) (by decide) (by decide) (by decide)
